import Mathlib

/-!
Shallow embedding of `uproot4/interpretation/library.py` (output
materialization layer: backend registry, per-field finalizers and the
grouping engine, including the Awkward `how="zip"` heuristic).

Python strings are modelled as `List Char`, Python dicts as
insertion-ordered association lists, numpy offsets buffers as `List Int`,
and the construction API of the backend container libraries (awkward1's
`zip` / `with_field`, pandas frames) as explicit record structures.
-/

set_option maxHeartbeats 1000000

deriving instance DecidableEq for Except

/-- Python strings, modelled as character lists. -/
abbrev PyStr := List Char

/-- Literal helper turning a Lean string into the `PyStr` model. -/
def pystr (s : String) : PyStr := s.data

/-- Characters of the Python `strip("_./")` separator set. -/
def isSep (c : Char) : Bool := c = '_' || c = '.' || c = '/'

/-- Python `s.strip("_./")`: removes leading and trailing separator
characters (both ends). -/
def stripSeps (s : PyStr) : PyStr :=
  ((s.dropWhile isSep).reverse.dropWhile isSep).reverse

/-- CPython dict insertion: if the key already exists its value is
replaced in place, otherwise the pair is appended. -/
def pyDictInsert {α : Type} (d : List (PyStr × α)) (k : PyStr) (v : α) :
    List (PyStr × α) :=
  if d.any (fun p => decide (p.1 = k)) then
    d.map (fun p => if p.1 = k then (k, v) else p)
  else
    d ++ [(k, v)]

/-- CPython `dict(pairs)`: left-to-right insertion. -/
def pyDictOf {α : Type} (ps : List (PyStr × α)) : List (PyStr × α) :=
  ps.foldl (fun d p => pyDictInsert d p.1 p.2) []

/-! Finalized Awkward per-field containers, as consumed by
`Awkward.group`: a jagged field exposes `layout.offsets`; everything
else is opaque for grouping purposes. -/

/-- Model of a finalized per-field container on the Awkward backend. -/
inductive AkArray where
  | listArr (offsets : List Int) (content : List Int)
  | flatArr (data : List Int)
  | otherArr
deriving DecidableEq, Repr

/-- The `array.layout.offsets` accessor (meaningful for `listArr`). -/
def offsetsOf : AkArray → List Int
  | .listArr o _ => o
  | _ => []

/-! The longest-common-prefix loop of `Awkward.group(how="zip")`
(library.py lines 190-197):

    cut = len(jagged[0])
    for name in jagged:
        cut = min(cut, len(name))
        while cut > 0 and name[:cut] != jagged[0][:cut]:
            cut -= 1
        if cut == 0:
            break
-/

/-- The inner `while` loop: decrement `cut` until the first `cut`
characters of `name` and of the cluster head agree. -/
def shrink (first name : PyStr) : Nat → Nat
  | 0 => 0
  | c + 1 => if name.take (c + 1) = first.take (c + 1) then c + 1 else shrink first name c

/-- The `for name in jagged` loop, threading `cut`. -/
def foldCut (first : PyStr) (names : List PyStr) (c : Nat) : Nat :=
  names.foldl (fun cut name => shrink first name (min cut name.length)) c

/-- Final value of `cut` for a cluster of member names. -/
def clusterCut : List PyStr → Nat
  | [] => 0
  | first :: rest => foldCut first (first :: rest) first.length

/-- The cluster's common name (library.py lines 198-204): synthetic
`"jagged<number>"` when `cut == 0`, else the head's `cut`-character
code with `strip("_./")` applied. -/
def clusterCommon (number : Nat) (jagged : List PyStr) : PyStr :=
  let cut := clusterCut jagged
  if cut = 0 then pystr "jagged" ++ (Nat.repr number).data
  else stripSeps ((jagged.headD []).take cut)

/-- The dict zipped for a cluster (library.py lines 200-207): original
names when `cut == 0`, else each member with the common code removed
and `strip("_./")` applied. -/
def clusterSubpairs (arrays : PyStr → AkArray) (jagged : List PyStr) :
    List (PyStr × AkArray) :=
  let cut := clusterCut jagged
  if cut = 0 then pyDictOf (jagged.map fun n => (n, arrays n))
  else pyDictOf (jagged.map fun n => (stripSeps (n.drop cut), arrays n))

/-- The sub-field names of a cluster's zipped record (the dict keys). -/
def clusterSubnames (jagged : List PyStr) : List PyStr :=
  (clusterSubpairs (fun _ => AkArray.otherArr) jagged).map Prod.fst

/-! Offsets clustering of `Awkward.group(how="zip")` (library.py lines
166-184): jagged fields are grouped by elementwise-equal offsets, first
matching cluster wins, new clusters are appended. -/

/-- One jagged field joins the first cluster with elementwise-equal
offsets, else founds a new cluster at the end. -/
def addToClusters (o : List Int) (n : PyStr) :
    List (List Int × List PyStr) → List (List Int × List PyStr)
  | [] => [(o, [n])]
  | (k, ms) :: rest =>
      if o = k then (k, ms ++ [n]) :: rest else (k, ms) :: addToClusters o n rest

/-- Clustering of all jagged field names, in context order. -/
def buildClusters (off : PyStr → List Int) (names : List PyStr) :
    List (List Int × List PyStr) :=
  names.foldl (fun cl n => addToClusters (off n) n cl) []

/-- Jagged field names of an expression context (`context["is_jagged"]`). -/
def jaggedOf (ctx : List (PyStr × Bool)) : List PyStr :=
  (ctx.filter (fun p => p.2)).map Prod.fst

/-- Non-jagged field names of an expression context. -/
def nonjaggedOf (ctx : List (PyStr × Bool)) : List PyStr :=
  (ctx.filter (fun p => !p.2)).map Prod.fst

/-- A value of the record produced by the zip heurstic: either a
finalized field array or a zipped sub-record. -/
inductive AkEntry where
  | arrE (a : AkArray)
  | subrecE (ps : List (PyStr × AkArray))
deriving DecidableEq, Repr

/-- Result of `Awkward.group(how="zip")`: Python `None` (no fields at
all) or a depth-1 record. -/
inductive AkOut where
  | noneOut
  | recOut (fields : List (PyStr × AkEntry))
deriving DecidableEq, Repr

/-- Model of `awkward1.with_field(base, what, where)`: an existing field of the
same name is replaced (removed, then the new binding appended). -/
def withField (fields : List (PyStr × AkEntry)) (v : AkEntry) (k : PyStr) :
    List (PyStr × AkEntry) :=
  fields.filter (fun p => decide (p.1 ≠ k)) ++ [(k, v)]

/-- The `for number, jagged in enumerate(jaggeds)` loop (library.py
lines 190-212): each cluster is zipped and attached under its common
name; the first cluster initializes the output when there were no
non-jagged fields; note the source applies `with_field` once per
cluster member. -/
def attachClusters (arrays : PyStr → AkArray) :
    Nat → Option (List (PyStr × AkEntry)) → List (List Int × List PyStr) →
    Option (List (PyStr × AkEntry))
  | _, acc, [] => acc
  | i, acc, (_, members) :: rest =>
      let common := clusterCommon i members
      let sub := AkEntry.subrecE (clusterSubpairs arrays members)
      match acc with
      | none => attachClusters arrays (i + 1) (some [(common, sub)]) rest
      | some fields =>
          attachClusters arrays (i + 1)
            (some (members.foldl (fun fs _ => withField fs sub common) fields)) rest

/-- Model of `Awkward.group(arrays, expression_context, how="zip")` (library.py
lines 165-213). -/
def groupZipOut (arrays : PyStr → AkArray) (ctx : List (PyStr × Bool)) : AkOut :=
  let nonj := nonjaggedOf ctx
  let cls := buildClusters (fun n => offsetsOf (arrays n)) (jaggedOf ctx)
  let init : Option (List (PyStr × AkEntry)) :=
    if nonj = [] then none
    else some (pyDictOf (nonj.map fun n => (n, AkEntry.arrE (arrays n))))
  match attachClusters arrays 0 init cls with
  | none => AkOut.noneOut
  | some fields => AkOut.recOut fields

/-- The list of cluster common names, in cluster order with their
enumeration indices. -/
def commonsFrom : Nat → List (List Int × List PyStr) → List PyStr
  | _, [] => []
  | i, (_, members) :: rest => clusterCommon i members :: commonsFrom (i + 1) rest

/-- Common names of all clusters of a `how="zip"` call. -/
def zipCommons (arrays : PyStr → AkArray) (ctx : List (PyStr × Bool)) : List PyStr :=
  commonsFrom 0 (buildClusters (fun n => offsetsOf (arrays n)) (jaggedOf ctx))

/-- Spec-side definition (follows the spec words "compared
cluster-by-cluster in first-seen order, new distinct-offsets clusters
appended"): deduplicate keeping the first occurrence. -/
def firstSeenOffsets_spec (l : List (List Int)) : List (List Int) :=
  l.foldl (fun ks o => if o ∈ ks then ks else ks ++ [o]) []

/-! `Awkward.finalize` (library.py lines 101-149): dispatch on the array
variant and, for strings, on the offsets integer width. -/

/-- Integer dtype of an offsets buffer; `otherW` stands for any width
outside the three recognized ones. -/
inductive OffDtype where
  | i32 | u32 | i64 | otherW
deriving DecidableEq, Repr

/-- Native index-width variants of the awkward list layouts. -/
inductive AkIndexWidth where
  | w32 | wU32 | w64
deriving DecidableEq, Repr

/-- Containers `Awkward.finalize` can produce. -/
inductive AkCont where
  | listCont (w : AkIndexWidth) (isStr : Bool)
  | recordCont
  | numpyCont
deriving DecidableEq, Repr

/-- Errors `Awkward.finalize` can raise. -/
inductive FinErr where
  | assertErr
  | notImplErr
deriving DecidableEq, Repr

/-- Input shapes of `Awkward.finalize`, keeping only what the dispatch
inspects. -/
inductive AkInput where
  | jaggedIn (d : OffDtype)
  | stringIn (d : OffDtype)
  | objectIn
  | namedFlatIn
  | plainFlatIn
deriving DecidableEq, Repr

/-- Model of `Awkward.finalize`: the `JaggedArray` branch builds `Index32` and
`ListOffsetArray32` unconditionally; the `StringArray` branch dispatches
on `int32` / `uint32` / `int64` and raises `AssertionError` otherwise;
`ObjectArray` raises `NotImplementedError`. -/
def akFinalize : AkInput → Except FinErr AkCont
  | .jaggedIn _ => .ok (.listCont .w32 false)
  | .stringIn d =>
      match d with
      | .i32 => .ok (.listCont .w32 true)
      | .u32 => .ok (.listCont .wU32 true)
      | .i64 => .ok (.listCont .w64 true)
      | .otherW => .error .assertErr
  | .objectIn => .error .notImplErr
  | .namedFlatIn => .ok .recordCont
  | .plainFlatIn => .ok .numpyCont

/-- Spec-side definition (follows the spec words "integer width of the
offsets ... must be preserved into the corresponding native index-width
variant - mismatched/unsupported widths are a fatal internal error"). -/
def akFinalizeWidth_spec (isStr : Bool) (d : OffDtype) : Except FinErr AkCont :=
  match d with
  | .i32 => .ok (.listCont .w32 isStr)
  | .u32 => .ok (.listCont .wU32 isStr)
  | .i64 => .ok (.listCont .w64 isStr)
  | .otherW => .error .assertErr

/-! The `imported` property (library.py lines 88-99 and 412-427).  The
body runs a Python `import` statement on every access: the statement
itself consults the process module cache (`sys.modules`) and re-runs the
loader when the module is not cached; a failed load caches nothing.  The
property wraps the failure in an `ImportError` with a remediation
message and returns the module handle on success. -/

/-- Process-level import state: whether the module is in the module
cache, and how many underlying acquisition attempts have run. -/
structure ModState where
  cached : Bool
  acq : Nat
deriving DecidableEq, Repr

/-- Semantics of the Python `import` statement: cached modules are
returned without work; otherwise the loader runs (counted), succeeding
iff the dependency is available, and only success populates the cache. -/
def pyImport (avail : Bool) (s : ModState) : ModState × Bool :=
  if s.cached then (s, true)
  else if avail then ({ cached := true, acq := s.acq + 1 }, true)
  else ({ s with acq := s.acq + 1 }, false)

/-- The `imported` property of `Awkward` / `Pandas` / `CuPy`: try to
acquire the module; on failure raise an `ImportError` carrying the
backend's fixed remediation message. -/
def importedProp (msg : PyStr) (avail : Bool) (s : ModState) :
    ModState × Except PyStr Unit :=
  match pyImport avail s with
  | (s1, true) => (s1, .ok ())
  | (s1, false) => (s1, .error msg)

/-! The backend registry `_libraries` / `_regularize_library`
(library.py lines 451-491). -/

/-- The four backend singletons, one per canonical name. -/
inductive LibName where
  | np | ak | pd | cp
deriving DecidableEq, Repr

/-- The registration table, exactly the keys the source installs, in
source order. -/
def libraryPairs : List (PyStr × LibName) :=
  [ (pystr "np", .np), (pystr "ak", .ak), (pystr "pd", .pd), (pystr "cp", .cp),
    (pystr "numpy", .np), (pystr "Numpy", .np), (pystr "NumPy", .np), (pystr "NUMPY", .np),
    (pystr "awkward1", .ak), (pystr "Awkward1", .ak), (pystr "AWKWARD1", .ak),
    (pystr "awkward", .ak), (pystr "Awkward", .ak), (pystr "AWKWARD", .ak),
    (pystr "pandas", .pd), (pystr "Pandas", .pd), (pystr "PANDAS", .pd),
    (pystr "cupy", .cp), (pystr "Cupy", .cp), (pystr "CuPy", .cp), (pystr "CUPY", .cp) ]

/-- Association-list lookup, as the Python dict lookup `_libraries[s]`. -/
def assocFind : List (PyStr × LibName) → PyStr → Option LibName
  | [], _ => none
  | (k, v) :: rest, s => if s = k then some v else assocFind rest s

/-- Error raised by `_regularize_library` on an unknown identifier; it
names the identifier ("unrecognized library: {0}".format(repr(library))). -/
inductive RegErr where
  | valueErr (ident : PyStr)
deriving DecidableEq, Repr

/-- Model of `_regularize_library` restricted to string identifiers: dict lookup,
`KeyError` turned into a `ValueError` naming the identifier.  (The
instance and class branches of the source resolve through the same
table via `library.name`.) -/
def regularizeLibrary (s : PyStr) : Except RegErr LibName :=
  match assocFind libraryPairs s with
  | some l => .ok l
  | none => .error (.valueErr s)

/-- Spec-side definition of case folding, for the claim's
"case-insensitive variant" notion. -/
def lowerName (s : PyStr) : PyStr := s.map Char.toLower

/-! The `group` dispatchers (library.py lines 38-49, 151-219, 306-406). -/

/-- The `how` argument: the `tuple` / `list` / `dict` types, `None`, or
a string. -/
inductive How where
  | tup | lst | dct | noneH | strH (s : PyStr)
deriving DecidableEq, Repr

/-- Error raised (`TypeError`) on an unsupported `how`; the message names the
backend (`"for library {0}, how must be ...".format(self.name)`). -/
inductive TypeErr where
  | typeErr (lib : PyStr)
deriving DecidableEq, Repr

/-- Result shapes of the base `Library.group`. -/
inductive LibGroupOut (α : Type) where
  | tupleOut (xs : List α)
  | listOut (xs : List α)
  | dictOut (ps : List (PyStr × α))
deriving DecidableEq, Repr

/-- Base `Library.group` (inherited by the NumPy and CuPy backends):
pure re-projection; `None` means `dict`; anything else is a
`TypeError`. -/
def libraryGroup {α : Type} (libName : PyStr) (arrays : PyStr → α)
    (ctx : List (PyStr × Bool)) : How → Except TypeErr (LibGroupOut α)
  | .tup => .ok (.tupleOut (ctx.map fun p => arrays p.1))
  | .lst => .ok (.listOut (ctx.map fun p => arrays p.1))
  | .dct => .ok (.dictOut (pyDictOf (ctx.map fun p => (p.1, arrays p.1))))
  | .noneH => .ok (.dictOut (pyDictOf (ctx.map fun p => (p.1, arrays p.1))))
  | .strH _ => .error (.typeErr libName)

/-- Result shapes of `Awkward.group`. -/
inductive AkGroupOut where
  | tupleOut (xs : List AkArray)
  | listOut (xs : List AkArray)
  | dictOut (ps : List (PyStr × AkArray))
  | arrOut (o : AkOut)
deriving DecidableEq, Repr

/-- Model of `Awkward.group`: re-projections as the base class; `None` is a
depth-1 zip of all fields; `"zip"` runs the nesting heuristic; any
other string is a `TypeError`. -/
def awkwardGroup (arrays : PyStr → AkArray) (ctx : List (PyStr × Bool)) :
    How → Except TypeErr AkGroupOut
  | .tup => .ok (.tupleOut (ctx.map fun p => arrays p.1))
  | .lst => .ok (.listOut (ctx.map fun p => arrays p.1))
  | .dct => .ok (.dictOut (pyDictOf (ctx.map fun p => (p.1, arrays p.1))))
  | .noneH => .ok (.arrOut (.recOut (pyDictOf (ctx.map fun p => (p.1, AkEntry.arrE (arrays p.1))))))
  | .strH s =>
      if s = pystr "zip" then .ok (.arrOut (groupZipOut arrays ctx))
      else .error (.typeErr (pystr "ak"))

/-- Result shapes of `Pandas.group`.  The `how is None` / string-`how`
branch runs the index-alignment and merge algorithm, which no claim
exercises; it is kept abstract as `framesOut`. -/
inductive PdGroupOut (β : Type) where
  | tupleOut (xs : List β)
  | listOut (xs : List β)
  | dictOut (ps : List (PyStr × β))
  | framesOut
deriving DecidableEq, Repr

/-- Model of `Pandas.group`: re-projections as the base class; `None` and any
string select the merge/align branch (`uproot4._util.isstr(how) or how
is None`). -/
def pandasGroup {β : Type} (arrays : PyStr → β) (ctx : List (PyStr × Bool)) :
    How → Except TypeErr (PdGroupOut β)
  | .tup => .ok (.tupleOut (ctx.map fun p => arrays p.1))
  | .lst => .ok (.listOut (ctx.map fun p => arrays p.1))
  | .dct => .ok (.dictOut (pyDictOf (ctx.map fun p => (p.1, arrays p.1))))
  | .noneH => .ok .framesOut
  | .strH _ => .ok .framesOut

/-- The shared re-projection `[arrays[name] for name, _ in
expression_context]`. -/
def ctxValues {γ : Type} (f : PyStr → γ) (ctx : List (PyStr × Bool)) : List γ :=
  ctx.map fun p => f p.1

/-! `Pandas.finalize` on `Flat` arrays (library.py lines 263-288):
structured element types are unpacked into one column per subfield and
trailing-index combination. -/

/-- A `Flat` numpy array as `Pandas.finalize` inspects it: optional
structured subfield names (`dtype.names`) and the trailing dimensions
(`shape[1:]`). -/
structure PdFlat where
  subfields : Option (List PyStr)
  extraDims : List Nat
deriving DecidableEq, Repr

/-- Model of `itertools.product(*[range(d) for d in dims])`, row-major. -/
def indexTuples : List Nat → List (List Nat)
  | [] => [[]]
  | d :: ds => (List.range d).foldr (fun i acc => ((indexTuples ds).map fun t => i :: t) ++ acc) []

/-- Model of the suffix join `"".join("[" + str(x) + "]" for x in tup)`. -/
def bracketSuffix (tup : List Nat) : PyStr :=
  tup.foldr (fun x acc => pystr "[" ++ (Nat.repr x).data ++ pystr "]" ++ acc) []

/-- Column name of a structured subfield slice: `":" + n + suffix`. -/
def pdColName (n : PyStr) (tup : List Nat) : PyStr :=
  pystr ":" ++ n ++ bracketSuffix tup

/-- The `for n in array.dtype.names: for tup in itertools.product(...)`
double loop, keeping for each column its name, subfield and index
tuple. -/
def namedCols (ns : List PyStr) (dims : List Nat) : List (PyStr × PyStr × List Nat) :=
  match ns with
  | [] => []
  | n :: rest => (indexTuples dims).map (fun tup => (pdColName n tup, n, tup)) ++ namedCols rest dims

/-- Results of `Pandas.finalize` on a `Flat` array. -/
inductive PdFinal where
  | frameNamed (cols : List (PyStr × PyStr × List Nat))
  | framePlain (cols : List (PyStr × List Nat))
  | seriesPlain
deriving DecidableEq, Repr

/-- Model of `Pandas.finalize` on a `Flat` array: structured dtype with extra
dimensions unpacks per (subfield, index tuple); structured dtype with
one dimension yields one `":" + n` column per subfield; plain dtypes
yield bracket-named columns or a plain series. -/
def pandasFinalizeFlat (a : PdFlat) : PdFinal :=
  match a.subfields with
  | some ns =>
      if a.extraDims.length ≠ 0 then .frameNamed (namedCols ns a.extraDims)
      else .frameNamed (ns.map fun n => (pystr ":" ++ n, n, []))
  | none =>
      if a.extraDims.length ≠ 0 then
        .framePlain ((indexTuples a.extraDims).map fun tup => (bracketSuffix tup, tup))
      else .seriesPlain

/-- Spec-side definition (follows the claim words "named by the
subfield name, plus one bracketed index suffix per trailing
dimension"). -/
def specColName_spec (n : PyStr) (tup : List Nat) : PyStr :=
  n ++ bracketSuffix tup

/-! Concrete inputs used by the scenario claims. -/

/-- Expression context of the muon scenario. -/
def muCtx : List (PyStr × Bool) :=
  [(pystr "muon_pt", true), (pystr "muon_eta", true), (pystr "event_id", false)]

/-- Finalized arrays of the muon scenario. -/
def muArrays : PyStr → AkArray := fun n =>
  if n = pystr "muon_pt" then .listArr [0, 2, 3] [1, 2, 3]
  else if n = pystr "muon_eta" then .listArr [0, 2, 3] [4, 5, 6]
  else .flatArr [10, 11]

/-- A context with two jagged fields of different offsets whose cluster
common names coincide. -/
def fooCtx : List (PyStr × Bool) :=
  [(pystr "foo_", true), (pystr "foo.", true)]

/-- Arrays for `fooCtx`. -/
def fooArrays : PyStr → AkArray := fun n =>
  if n = pystr "foo_" then .listArr [0, 1] [1]
  else .listArr [0, 2] [1, 2]

/-- Offsets map for the clustering witness: `a` and `b` share offsets,
`c` differs. -/
def offW : PyStr → List Int := fun n =>
  if n = pystr "a" then [0, 1] else if n = pystr "b" then [0, 1] else [0, 2]

/-- Field names for the clustering witness. -/
def namesW : List PyStr := [pystr "a", pystr "b", pystr "c"]

/-! Helper lemmas about the longest-common-prefix fold. -/

theorem shrink_le (f n : PyStr) (c : Nat) : shrink f n c ≤ c := by
  induction c with
  | zero => exact Nat.le_refl 0
  | succ c ih =>
      simp only [shrink]
      split
      · exact Nat.le_refl _
      · exact Nat.le_trans ih (Nat.le_succ c)

theorem shrink_take_eq (f n : PyStr) (c : Nat) :
    n.take (shrink f n c) = f.take (shrink f n c) := by
  induction c with
  | zero => simp [shrink]
  | succ c ih =>
      simp only [shrink]
      split
      · assumption
      · exact ih

theorem shrink_ge (f n : PyStr) (c d : Nat) (hd : d ≤ c)
    (he : n.take d = f.take d) : d ≤ shrink f n c := by
  induction c with
  | zero => exact hd
  | succ c ih =>
      simp only [shrink]
      split
      · exact hd
      · rename_i hne
        rcases Nat.lt_or_ge d (c + 1) with h | h
        · exact ih (Nat.lt_succ_iff.mp h)
        · have hdc : d = c + 1 := Nat.le_antisymm hd h
          subst hdc
          exact absurd he hne

theorem take_eq_mono (n f : PyStr) (d e : Nat) (hde : d ≤ e)
    (h : n.take e = f.take e) : n.take d = f.take d := by
  have h1 : n.take d = (n.take e).take d := by
    rw [List.take_take, Nat.min_eq_left hde]
  have h2 : f.take d = (f.take e).take d := by
    rw [List.take_take, Nat.min_eq_left hde]
  rw [h1, h2, h]

theorem foldCut_cons (f x : PyStr) (l : List PyStr) (c : Nat) :
    foldCut f (x :: l) c = foldCut f l (shrink f x (min c x.length)) := rfl

theorem foldCut_le (f : PyStr) (l : List PyStr) (c : Nat) : foldCut f l c ≤ c := by
  induction l generalizing c with
  | nil => exact Nat.le_refl c
  | cons x l ih =>
      rw [foldCut_cons]
      exact Nat.le_trans (ih _) (Nat.le_trans (shrink_le _ _ _) (Nat.min_le_left _ _))

theorem foldCut_le_length (f n : PyStr) (l : List PyStr) :
    ∀ c, n ∈ l → foldCut f l c ≤ n.length := by
  induction l with
  | nil => intro c h; cases h
  | cons x l ih =>
      intro c hn
      rw [foldCut_cons]
      rcases List.mem_cons.mp hn with h | h
      · subst h
        exact Nat.le_trans (foldCut_le _ _ _)
          (Nat.le_trans (shrink_le _ _ _) (Nat.min_le_right _ _))
      · exact ih _ h

theorem foldCut_take_eq (f n : PyStr) (l : List PyStr) :
    ∀ c, n ∈ l → n.take (foldCut f l c) = f.take (foldCut f l c) := by
  induction l with
  | nil => intro c h; cases h
  | cons x l ih =>
      intro c hn
      rw [foldCut_cons]
      rcases List.mem_cons.mp hn with h | h
      · subst h
        exact take_eq_mono _ _ _ _ (foldCut_le _ _ _) (shrink_take_eq _ _ _)
      · exact ih _ h

theorem foldCut_ge (f : PyStr) (l : List PyStr) (d : Nat) :
    ∀ c, (∀ n ∈ l, d ≤ n.length ∧ n.take d = f.take d) → d ≤ c →
      d ≤ foldCut f l c := by
  induction l with
  | nil => intro c _ hc; exact hc
  | cons x l ih =>
      intro c hall hc
      rw [foldCut_cons]
      have hx := hall x (List.mem_cons_self x l)
      have h1 : d ≤ min c x.length := le_min hc hx.1
      have h2 : d ≤ shrink f x (min c x.length) := shrink_ge _ _ _ _ h1 hx.2
      exact ih _ (fun n hn => hall n (List.mem_cons_of_mem _ hn)) h2

theorem clusterCut_le_length (jagged : List PyStr) (n : PyStr) (hn : n ∈ jagged) :
    clusterCut jagged ≤ n.length := by
  cases jagged with
  | nil => cases hn
  | cons first rest => exact foldCut_le_length first n (first :: rest) first.length hn

theorem clusterCut_take (jagged : List PyStr) (n : PyStr) (hn : n ∈ jagged) :
    n.take (clusterCut jagged) = (jagged.headD []).take (clusterCut jagged) := by
  cases jagged with
  | nil => cases hn
  | cons first rest => exact foldCut_take_eq first n (first :: rest) first.length hn

theorem clusterCut_ge (jagged : List PyStr) (d : Nat) (hne : jagged ≠ [])
    (hall : ∀ n ∈ jagged, d ≤ n.length ∧ n.take d = (jagged.headD []).take d) :
    d ≤ clusterCut jagged := by
  cases jagged with
  | nil => exact absurd rfl hne
  | cons first rest =>
      have hf := hall first (List.mem_cons_self first rest)
      exact foldCut_ge first (first :: rest) d first.length hall hf.1

/-! Helper lemmas about the Python dict model. -/

theorem insert_union_swap {γ : Type} [DecidableEq γ] (a : γ) (s t : Finset γ) :
    insert a s ∪ t = s ∪ insert a t := by
  ext x
  simp only [Finset.mem_union, Finset.mem_insert]
  tauto

theorem pyDictInsert_keys {α : Type} (d : List (PyStr × α)) (k : PyStr) (v : α) :
    ((pyDictInsert d k v).map Prod.fst).toFinset =
      insert k (d.map Prod.fst).toFinset := by
  unfold pyDictInsert
  split
  · rename_i h
    have hmem : k ∈ d.map Prod.fst := by
      rcases List.any_eq_true.mp h with ⟨p, hp, hpk⟩
      have hk : p.1 = k := of_decide_eq_true hpk
      exact hk ▸ List.mem_map_of_mem Prod.fst hp
    have hkeys : (d.map (fun p => if p.1 = k then (k, v) else p)).map Prod.fst
        = d.map Prod.fst := by
      rw [List.map_map]
      apply List.map_congr_left
      intro p _
      by_cases hpk : p.1 = k
      · simp [hpk]
      · simp [hpk]
    rw [hkeys]
    exact (Finset.insert_eq_self.mpr (List.mem_toFinset.mpr hmem)).symm
  · rw [List.map_append]
    simp only [List.map_cons, List.map_nil, List.toFinset_append, List.toFinset_cons,
      List.toFinset_nil, insert_emptyc_eq]
    ext x
    simp only [Finset.mem_union, Finset.mem_singleton, Finset.mem_insert]
    tauto

theorem pyDictOf_keys_aux {α : Type} (ps : List (PyStr × α)) :
    ∀ acc : List (PyStr × α),
      ((ps.foldl (fun d p => pyDictInsert d p.1 p.2) acc).map Prod.fst).toFinset
        = (acc.map Prod.fst).toFinset ∪ (ps.map Prod.fst).toFinset := by
  induction ps with
  | nil => intro acc; simp
  | cons p ps ih =>
      intro acc
      rw [List.foldl_cons, ih, pyDictInsert_keys]
      simp only [List.map_cons, List.toFinset_cons]
      exact insert_union_swap _ _ _

theorem pyDictOf_keys {α : Type} (ps : List (PyStr × α)) :
    ((pyDictOf ps).map Prod.fst).toFinset = (ps.map Prod.fst).toFinset := by
  have h := pyDictOf_keys_aux ps []
  simpa [pyDictOf] using h

theorem pyDictOf_mem_keys {α : Type} (ps : List (PyStr × α)) (x : PyStr) :
    x ∈ (pyDictOf ps).map Prod.fst ↔ x ∈ ps.map Prod.fst := by
  rw [← List.mem_toFinset, pyDictOf_keys, List.mem_toFinset]

/-! Helper lemmas about offsets clustering. -/

theorem addToClusters_ne_nil (o : List Int) (n : PyStr)
    (cl : List (List Int × List PyStr)) : addToClusters o n cl ≠ [] := by
  cases cl with
  | nil => simp [addToClusters]
  | cons d rest =>
      obtain ⟨k, ms⟩ := d
      by_cases h : o = k <;> simp [addToClusters, h]

theorem addToClusters_keys (o : List Int) (n : PyStr)
    (cl : List (List Int × List PyStr)) :
    (addToClusters o n cl).map Prod.fst =
      if o ∈ cl.map Prod.fst then cl.map Prod.fst else cl.map Prod.fst ++ [o] := by
  induction cl with
  | nil => simp [addToClusters]
  | cons d rest ih =>
      obtain ⟨k, ms⟩ := d
      by_cases h : o = k
      · simp [addToClusters, h]
      · simp only [addToClusters, if_neg h, List.map_cons, ih]
        by_cases h2 : o ∈ rest.map Prod.fst
        · simp [h2, List.mem_cons, h]
        · simp [h2, List.mem_cons, h]

theorem addToClusters_mem_new (o : List Int) (n : PyStr)
    (cl : List (List Int × List PyStr)) :
    ∃ c ∈ addToClusters o n cl, c.1 = o ∧ n ∈ c.2 := by
  induction cl with
  | nil =>
      refine ⟨(o, [n]), ?_, rfl, ?_⟩
      · simp [addToClusters]
      · simp
  | cons d rest ih =>
      obtain ⟨k, ms⟩ := d
      by_cases h : o = k
      · refine ⟨(k, ms ++ [n]), ?_, h.symm, ?_⟩
        · simp [addToClusters, if_pos h]
        · simp
      · rcases ih with ⟨c, hc, hc1, hc2⟩
        refine ⟨c, ?_, hc1, hc2⟩
        simp only [addToClusters, if_neg h]
        exact List.mem_cons_of_mem _ hc

theorem addToClusters_mem_old (o : List Int) (n : PyStr)
    (cl : List (List Int × List PyStr)) (c : List Int × List PyStr) (hc : c ∈ cl) :
    ∃ c2 ∈ addToClusters o n cl, c2.1 = c.1 ∧ ∀ m ∈ c.2, m ∈ c2.2 := by
  induction cl with
  | nil => cases hc
  | cons d rest ih =>
      obtain ⟨k, ms⟩ := d
      by_cases h : o = k
      · rcases List.mem_cons.mp hc with h1 | h1
        · refine ⟨(k, ms ++ [n]), ?_, ?_, ?_⟩
          · simp [addToClusters, if_pos h]
          · rw [h1]
          · intro m hm
            rw [h1] at hm
            exact List.mem_append_left _ hm
        · refine ⟨c, ?_, rfl, fun m hm => hm⟩
          simp only [addToClusters, if_pos h]
          exact List.mem_cons_of_mem _ h1
      · rcases List.mem_cons.mp hc with h1 | h1
        · refine ⟨(k, ms), ?_, ?_, ?_⟩
          · simp only [addToClusters, if_neg h]
            exact List.mem_cons_self _ _
          · rw [h1]
          · intro m hm
            rw [h1] at hm
            exact hm
        · rcases ih h1 with ⟨c2, hc2, e1, e2⟩
          refine ⟨c2, ?_, e1, e2⟩
          simp only [addToClusters, if_neg h]
          exact List.mem_cons_of_mem _ hc2

theorem addToClusters_inv (off : PyStr → List Int) (o : List Int) (n : PyStr)
    (cl : List (List Int × List PyStr))
    (hinv : ∀ c ∈ cl, ∀ m ∈ c.2, off m = c.1) (hn : off n = o) :
    ∀ c ∈ addToClusters o n cl, ∀ m ∈ c.2, off m = c.1 := by
  induction cl with
  | nil =>
      intro c hc m hm
      simp only [addToClusters, List.mem_singleton] at hc
      subst hc
      rw [List.mem_singleton] at hm
      subst hm
      exact hn
  | cons d rest ih =>
      obtain ⟨k, ms⟩ := d
      by_cases h : o = k
      · intro c hc m hm
        simp only [addToClusters, if_pos h] at hc
        rcases List.mem_cons.mp hc with h1 | h1
        · subst h1
          rcases List.mem_append.mp hm with h2 | h2
          · exact hinv (k, ms) (List.mem_cons_self _ _) m h2
          · rw [List.mem_singleton] at h2
            subst h2
            rw [hn, h]
        · exact hinv c (List.mem_cons_of_mem _ h1) m hm
      · intro c hc m hm
        simp only [addToClusters, if_neg h] at hc
        rcases List.mem_cons.mp hc with h1 | h1
        · subst h1
          exact hinv (k, ms) (List.mem_cons_self _ _) m hm
        · exact ih (fun c2 hc2 => hinv c2 (List.mem_cons_of_mem _ hc2)) c h1 m hm

theorem addToClusters_members_ne (o : List Int) (n : PyStr)
    (cl : List (List Int × List PyStr)) (h : ∀ c ∈ cl, c.2 ≠ []) :
    ∀ c ∈ addToClusters o n cl, c.2 ≠ [] := by
  induction cl with
  | nil =>
      intro c hc
      simp only [addToClusters, List.mem_singleton] at hc
      subst hc
      simp
  | cons d rest ih =>
      obtain ⟨k, ms⟩ := d
      by_cases hok : o = k
      · intro c hc
        simp only [addToClusters, if_pos hok] at hc
        rcases List.mem_cons.mp hc with h1 | h1
        · subst h1
          simp
        · exact h c (List.mem_cons_of_mem _ h1)
      · intro c hc
        simp only [addToClusters, if_neg hok] at hc
        rcases List.mem_cons.mp hc with h1 | h1
        · subst h1
          exact h (k, ms) (List.mem_cons_self _ _)
        · exact ih (fun c2 hc2 => h c2 (List.mem_cons_of_mem _ hc2)) c h1

theorem nodup_append_single {γ : Type} (l : List γ) (a : γ) :
    l.Nodup → a ∉ l → (l ++ [a]).Nodup := by
  induction l with
  | nil => intro _ _; simp
  | cons x l ih =>
      intro h ha
      rw [List.cons_append, List.nodup_cons]
      rw [List.nodup_cons] at h
      have hax : a ≠ x := fun he => ha (he ▸ List.mem_cons_self x l)
      constructor
      · intro hx
        rcases List.mem_append.mp hx with h1 | h1
        · exact h.1 h1
        · rw [List.mem_singleton] at h1
          exact hax h1.symm
      · exact ih h.2 (fun hal => ha (List.mem_cons_of_mem x hal))

theorem map_nodup_eq_of_eq_fst {γ δ : Type} (l : List γ) (f : γ → δ)
    (h : (l.map f).Nodup) (a b : γ) (ha : a ∈ l) (hb : b ∈ l) (hf : f a = f b) :
    a = b := by
  induction l with
  | nil => cases ha
  | cons x l ih =>
      rw [List.map_cons, List.nodup_cons] at h
      rcases List.mem_cons.mp ha with h1 | h1 <;> rcases List.mem_cons.mp hb with h2 | h2
      · rw [h1, h2]
      · subst h1
        have hbm : f b ∈ l.map f := List.mem_map_of_mem f h2
        rw [← hf] at hbm
        exact absurd hbm h.1
      · subst h2
        have ham : f a ∈ l.map f := List.mem_map_of_mem f h1
        rw [hf] at ham
        exact absurd ham h.1
      · exact ih h.2 h1 h2

theorem buildFold_inv (off : PyStr → List Int) (names : List PyStr) :
    ∀ acc, (∀ c ∈ acc, ∀ m ∈ c.2, off m = c.1) →
      ∀ c ∈ names.foldl (fun cl n => addToClusters (off n) n cl) acc,
        ∀ m ∈ c.2, off m = c.1 := by
  induction names with
  | nil => intro acc h; exact h
  | cons x names ih =>
      intro acc h
      exact ih _ (addToClusters_inv off (off x) x acc h rfl)

theorem buildClusters_inv (off : PyStr → List Int) (names : List PyStr) :
    ∀ c ∈ buildClusters off names, ∀ m ∈ c.2, off m = c.1 :=
  buildFold_inv off names [] (by intro c hc; cases hc)

theorem buildFold_keys (off : PyStr → List Int) (names : List PyStr) :
    ∀ acc, (names.foldl (fun cl n => addToClusters (off n) n cl) acc).map Prod.fst
      = (names.map off).foldl (fun ks o => if o ∈ ks then ks else ks ++ [o])
          (acc.map Prod.fst) := by
  induction names with
  | nil => intro acc; rfl
  | cons x names ih =>
      intro acc
      rw [List.foldl_cons, ih, List.map_cons, List.foldl_cons, addToClusters_keys]

theorem buildClusters_keys (off : PyStr → List Int) (names : List PyStr) :
    (buildClusters off names).map Prod.fst = firstSeenOffsets_spec (names.map off) :=
  buildFold_keys off names []

theorem buildFold_nodup (off : PyStr → List Int) (names : List PyStr) :
    ∀ acc, ((acc.map Prod.fst).Nodup) →
      ((names.foldl (fun cl n => addToClusters (off n) n cl) acc).map Prod.fst).Nodup := by
  induction names with
  | nil => intro acc h; exact h
  | cons x names ih =>
      intro acc h
      apply ih
      rw [addToClusters_keys]
      split
      · exact h
      · rename_i hmem
        exact nodup_append_single _ _ h hmem

theorem buildClusters_nodup_keys (off : PyStr → List Int) (names : List PyStr) :
    ((buildClusters off names).map Prod.fst).Nodup :=
  buildFold_nodup off names [] (by simp)

theorem buildFold_persist (off : PyStr → List Int) (names : List PyStr)
    (k : List Int) (x : PyStr) :
    ∀ acc, (∃ c ∈ acc, c.1 = k ∧ x ∈ c.2) →
      ∃ c ∈ names.foldl (fun cl n => addToClusters (off n) n cl) acc,
        c.1 = k ∧ x ∈ c.2 := by
  induction names with
  | nil => intro acc h; exact h
  | cons y names ih =>
      intro acc h
      apply ih
      rcases h with ⟨c, hc, h1, h2⟩
      rcases addToClusters_mem_old (off y) y acc c hc with ⟨c2, hc2, e1, e2⟩
      exact ⟨c2, hc2, e1.trans h1, e2 x h2⟩

theorem buildFold_mem (off : PyStr → List Int) (names : List PyStr) :
    ∀ acc, ∀ n ∈ names,
      ∃ c ∈ names.foldl (fun cl n => addToClusters (off n) n cl) acc,
        c.1 = off n ∧ n ∈ c.2 := by
  induction names with
  | nil => intro acc n h; cases h
  | cons y names ih =>
      intro acc n hn
      rcases List.mem_cons.mp hn with h | h
      · subst h
        rw [List.foldl_cons]
        exact buildFold_persist off names (off n) n _ (addToClusters_mem_new (off n) n acc)
      · exact ih _ n h

theorem buildClusters_mem (off : PyStr → List Int) (names : List PyStr)
    (n : PyStr) (hn : n ∈ names) :
    ∃ c ∈ buildClusters off names, c.1 = off n ∧ n ∈ c.2 :=
  buildFold_mem off names [] n hn

theorem buildFold_members_ne (off : PyStr → List Int) (names : List PyStr) :
    ∀ acc, (∀ c ∈ acc, c.2 ≠ []) →
      ∀ c ∈ names.foldl (fun cl n => addToClusters (off n) n cl) acc, c.2 ≠ [] := by
  induction names with
  | nil => intro acc h; exact h
  | cons x names ih =>
      intro acc h
      exact ih _ (addToClusters_members_ne (off x) x acc h)

theorem buildClusters_members_ne (off : PyStr → List Int) (names : List PyStr) :
    ∀ c ∈ buildClusters off names, c.2 ≠ [] :=
  buildFold_members_ne off names [] (by intro c hc; cases hc)

theorem buildClusters_ne_nil (off : PyStr → List Int) (names : List PyStr)
    (h : names ≠ []) : buildClusters off names ≠ [] := by
  cases names with
  | nil => exact absurd rfl h
  | cons x names =>
      have haux : ∀ (l : List PyStr) (acc : List (List Int × List PyStr)), acc ≠ [] →
          l.foldl (fun cl n => addToClusters (off n) n cl) acc ≠ [] := by
        intro l
        induction l with
        | nil => intro acc hacc; exact hacc
        | cons y l ih => intro acc _; exact ih _ (addToClusters_ne_nil _ _ _)
      exact haux names _ (addToClusters_ne_nil _ _ _)

/-! Helper lemmas about record-field assembly. -/

theorem withField_keys (fs : List (PyStr × AkEntry)) (v : AkEntry) (k : PyStr) :
    ((withField fs v k).map Prod.fst).toFinset =
      insert k (fs.map Prod.fst).toFinset := by
  unfold withField
  ext x
  simp only [List.map_append, List.toFinset_append, Finset.mem_union, List.mem_toFinset,
    List.mem_map, List.mem_filter, List.map_cons, List.map_nil, Finset.mem_insert,
    List.toFinset_cons, List.toFinset_nil, insert_emptyc_eq, Finset.mem_singleton,
    decide_eq_true_eq]
  constructor
  · rintro (⟨p, ⟨hp, _⟩, rfl⟩ | rfl)
    · exact Or.inr ⟨p, hp, rfl⟩
    · exact Or.inl rfl
  · rintro (rfl | ⟨p, hp, rfl⟩)
    · exact Or.inr rfl
    · by_cases hx : p.1 = k
      · exact Or.inr hx
      · exact Or.inl ⟨p, ⟨hp, hx⟩, rfl⟩

theorem foldWithField_keys (ms : List PyStr) (v : AkEntry) (k : PyStr) :
    ∀ fs, ms ≠ [] →
      ((ms.foldl (fun a _ => withField a v k) fs).map Prod.fst).toFinset =
        insert k (fs.map Prod.fst).toFinset := by
  induction ms with
  | nil => intro fs h; exact absurd rfl h
  | cons x ms ih =>
      intro fs _
      rw [List.foldl_cons]
      by_cases hm : ms = []
      · subst hm
        exact withField_keys fs v k
      · rw [ih _ hm, withField_keys]
        exact Finset.insert_idem _ _

theorem attachClusters_some_keys (arrays : PyStr → AkArray)
    (cls : List (List Int × List PyStr)) :
    ∀ i fs, (∀ c ∈ cls, c.2 ≠ []) →
      ∃ fields, attachClusters arrays i (some fs) cls = some fields ∧
        (fields.map Prod.fst).toFinset =
          (fs.map Prod.fst).toFinset ∪ (commonsFrom i cls).toFinset := by
  induction cls with
  | nil =>
      intro i fs _
      exact ⟨fs, rfl, by simp [commonsFrom]⟩
  | cons c rest ih =>
      obtain ⟨o, members⟩ := c
      intro i fs hne
      have hm : members ≠ [] := hne (o, members) (List.mem_cons_self _ _)
      simp only [attachClusters]
      rcases ih (i + 1)
          (members.foldl
            (fun a _ => withField a (AkEntry.subrecE (clusterSubpairs arrays members))
              (clusterCommon i members)) fs)
          (fun c2 hc2 => hne c2 (List.mem_cons_of_mem _ hc2)) with ⟨fields, he, hk⟩
      refine ⟨fields, he, ?_⟩
      rw [hk, foldWithField_keys members _ _ fs hm]
      simp only [commonsFrom, List.toFinset_cons]
      exact insert_union_swap _ _ _

theorem attachClusters_none_keys (arrays : PyStr → AkArray)
    (cls : List (List Int × List PyStr)) :
    ∀ i, cls ≠ [] → (∀ c ∈ cls, c.2 ≠ []) →
      ∃ fields, attachClusters arrays i none cls = some fields ∧
        (fields.map Prod.fst).toFinset = (commonsFrom i cls).toFinset := by
  cases cls with
  | nil => intro i h _; exact absurd rfl h
  | cons c rest =>
      obtain ⟨o, members⟩ := c
      intro i _ hne
      simp only [attachClusters]
      rcases attachClusters_some_keys arrays rest (i + 1)
          [(clusterCommon i members, AkEntry.subrecE (clusterSubpairs arrays members))]
          (fun c2 hc2 => hne c2 (List.mem_cons_of_mem _ hc2)) with ⟨fields, he, hk⟩
      refine ⟨fields, he, ?_⟩
      rw [hk]
      simp only [commonsFrom, List.toFinset_cons, List.map_cons, List.map_nil,
        List.toFinset_nil, insert_emptyc_eq]
      rw [Finset.insert_eq]

theorem ctx_split_ne (ctx : List (PyStr × Bool)) (h : ctx ≠ []) :
    nonjaggedOf ctx ≠ [] ∨ jaggedOf ctx ≠ [] := by
  cases ctx with
  | nil => exact absurd rfl h
  | cons p rest =>
      by_cases hp : p.2 = true
      · right
        simp [jaggedOf, List.filter_cons, hp]
      · left
        simp only [Bool.not_eq_true] at hp
        simp [nonjaggedOf, List.filter_cons, hp]

theorem pyDictOf_single {α : Type} (k : PyStr) (v : α) : pyDictOf [(k, v)] = [(k, v)] := rfl

theorem shrink_self (f : PyStr) (c : Nat) : shrink f f c = c := by
  induction c with
  | zero => rfl
  | succ c _ => simp [shrink]

theorem map_fst_pair_map {σ α : Type} (l : List σ) (g : σ → PyStr)
    (v : σ → α) : (l.map fun n => (g n, v n)).map Prod.fst = l.map g := by
  induction l with
  | nil => rfl
  | cons x l ih => simp [ih]

/-- Claim C1 (amended): in the zip heuristic, `cut` is the length of the
longest common leading-character prefix of the cluster members (it is a
common take of every member, and maximal among such); the common name
strips the prefix on both ends (not only trailing separators), the
synthetic `jagged<index>` name is chosen when the prefix is empty before
stripping, and sub-field names are suffixes stripped on both ends. -/
theorem c1_zip_common_name (jagged : List PyStr) (i : Nat) (h : jagged ≠ []) :
    (∀ n ∈ jagged, clusterCut jagged ≤ n.length ∧
      n.take (clusterCut jagged) = (jagged.headD []).take (clusterCut jagged)) ∧
    (∀ d, (∀ n ∈ jagged, d ≤ n.length ∧ n.take d = (jagged.headD []).take d) →
      d ≤ clusterCut jagged) ∧
    (clusterCut jagged = 0 →
      clusterCommon i jagged = pystr "jagged" ++ (Nat.repr i).data ∧
      (∀ s, s ∈ clusterSubnames jagged ↔ s ∈ jagged)) ∧
    (clusterCut jagged ≠ 0 →
      clusterCommon i jagged = stripSeps ((jagged.headD []).take (clusterCut jagged)) ∧
      (∀ s, s ∈ clusterSubnames jagged ↔
        ∃ n ∈ jagged, s = stripSeps (n.drop (clusterCut jagged)))) := by
  refine ⟨?_, ?_, ?_, ?_⟩
  · intro n hn
    exact ⟨clusterCut_le_length jagged n hn, clusterCut_take jagged n hn⟩
  · intro d hall
    exact clusterCut_ge jagged d h hall
  · intro h0
    constructor
    · simp [clusterCommon, h0]
    · intro s
      simp only [clusterSubnames, clusterSubpairs, h0, if_pos]
      rw [← List.mem_toFinset, pyDictOf_keys, List.mem_toFinset, map_fst_pair_map]
      simp
  · intro h0
    constructor
    · simp [clusterCommon, h0]
    · intro s
      simp only [clusterSubnames, clusterSubpairs]
      rw [if_neg h0]
      rw [← List.mem_toFinset, pyDictOf_keys, List.mem_toFinset, map_fst_pair_map]
      constructor
      · intro hs
        rcases List.mem_map.mp hs with ⟨n, hn, he⟩
        exact ⟨n, hn, he.symm⟩
      · rintro ⟨n, hn, rfl⟩
        exact List.mem_map_of_mem _ hn

/-- Claim C1 counterexample: for the cluster `["_a", "_b"]` the common
prefix is `"_"` (nonempty), so the code does not fall back to the
synthetic name although the prefix strips to the empty string, and it
zips under stripped suffixes rather than the original names; for the
cluster `["_x_a_", "_x_b_"]`, stripping removes leading separators from
the common name and trailing separators from the suffixes, contradicting
trailing-only prefix stripping and suffix-only prefix removal. -/
theorem c1_counterexample :
    clusterCommon 0 [pystr "_a", pystr "_b"] = pystr "" ∧
    pystr "" ≠ pystr "jagged0" ∧
    clusterSubnames [pystr "_a", pystr "_b"] = [pystr "a", pystr "b"] ∧
    clusterSubnames [pystr "_a", pystr "_b"] ≠ [pystr "_a", pystr "_b"] ∧
    clusterCommon 0 [pystr "_x_a_", pystr "_x_b_"] = pystr "x" ∧
    pystr "x" ≠ pystr "_x" ∧
    clusterSubnames [pystr "_x_a_", pystr "_x_b_"] = [pystr "a", pystr "b"] ∧
    pystr "a" ≠ pystr "a_" := by decide

/-- Claim C1 witness: the amended theorem evaluated on the cluster
`["muon_pt", "muon_eta"]`. -/
theorem c1_witness :
    clusterCommon 0 [pystr "muon_pt", pystr "muon_eta"] =
      stripSeps (([pystr "muon_pt", pystr "muon_eta"].headD []).take
        (clusterCut [pystr "muon_pt", pystr "muon_eta"])) ∧
    (pystr "pt" ∈ clusterSubnames [pystr "muon_pt", pystr "muon_eta"] ↔
      ∃ n ∈ [pystr "muon_pt", pystr "muon_eta"],
        pystr "pt" = stripSeps (n.drop (clusterCut [pystr "muon_pt", pystr "muon_eta"]))) := by
  have h := c1_zip_common_name [pystr "muon_pt", pystr "muon_eta"] 0 (by decide)
  have h4 := h.2.2.2 (by decide)
  exact ⟨h4.1, h4.2 (pystr "pt")⟩

/-- Claim C5 (confirmed): two jagged fields land in the same cluster
iff their offsets are elementwise equal, and the cluster keys are the
distinct offsets in first-seen order (new ones appended). -/
theorem c5_offsets_clustering (off : PyStr → List Int) (names : List PyStr) :
    (∀ a ∈ names, ∀ b ∈ names,
      ((∃ c ∈ buildClusters off names, a ∈ c.2 ∧ b ∈ c.2) ↔ off a = off b)) ∧
    (buildClusters off names).map Prod.fst = firstSeenOffsets_spec (names.map off) := by
  constructor
  · intro a ha b hb
    constructor
    · rintro ⟨c, hc, hac, hbc⟩
      have h1 := buildClusters_inv off names c hc a hac
      have h2 := buildClusters_inv off names c hc b hbc
      rw [h1, h2]
    · intro hab
      rcases buildClusters_mem off names a ha with ⟨ca, hca, e1, e2⟩
      rcases buildClusters_mem off names b hb with ⟨cb, hcb, f1, f2⟩
      have hcc : ca = cb := map_nodup_eq_of_eq_fst _ Prod.fst
        (buildClusters_nodup_keys off names) ca cb hca hcb (by rw [e1, f1, hab])
      refine ⟨ca, hca, e2, ?_⟩
      rw [hcc]
      exact f2
  · exact buildClusters_keys off names

/-- Claim C5 witness: the clustering theorem evaluated on fields `a`,
`b` (shared offsets) and `c` (different offsets). -/
theorem c5_witness :
    ((∃ c ∈ buildClusters offW namesW, pystr "a" ∈ c.2 ∧ pystr "b" ∈ c.2) ↔
      offW (pystr "a") = offW (pystr "b")) ∧
    ((∃ c ∈ buildClusters offW namesW, pystr "a" ∈ c.2 ∧ pystr "c" ∈ c.2) ↔
      offW (pystr "a") = offW (pystr "c")) ∧
    (buildClusters offW namesW).map Prod.fst = firstSeenOffsets_spec (namesW.map offW) :=
  ⟨(c5_offsets_clustering offW namesW).1 _ (by decide) _ (by decide),
   (c5_offsets_clustering offW namesW).1 _ (by decide) _ (by decide),
   (c5_offsets_clustering offW namesW).2⟩

/-- Claim C6 counterexample: for the cluster `["a_x", "a.x"]` the
common prefix is `"a"`; the stripped suffixes are `["x"]` (the two
suffixes collide after stripping), and re-running the common-prefix
computation on them gives length 1, not 0. -/
theorem c6_counterexample :
    clusterCut [pystr "a_x", pystr "a.x"] = 1 ∧
    clusterSubnames [pystr "a_x", pystr "a.x"] = [pystr "x"] ∧
    clusterCut (clusterSubnames [pystr "a_x", pystr "a.x"]) = 1 := by decide

/-- Claim C6 (amended): re-running the common-prefix computation on the
raw suffixes (the member names with the common prefix removed, before
separator stripping) yields an empty common prefix. -/
theorem c6_raw_suffix_lcp (jagged : List PyStr) (h : jagged ≠ []) :
    clusterCut (jagged.map fun n => n.drop (clusterCut jagged)) = 0 := by
  cases jagged with
  | nil => exact absurd rfl h
  | cons f rest =>
      by_contra h0
      have hhead : (((f :: rest).map fun n => n.drop (clusterCut (f :: rest))).headD [])
          = f.drop (clusterCut (f :: rest)) := by simp
      have hall : ∀ n ∈ f :: rest,
          clusterCut (f :: rest) +
            clusterCut ((f :: rest).map fun m => m.drop (clusterCut (f :: rest))) ≤ n.length ∧
          n.take (clusterCut (f :: rest) +
            clusterCut ((f :: rest).map fun m => m.drop (clusterCut (f :: rest)))) =
            ((f :: rest).headD []).take (clusterCut (f :: rest) +
              clusterCut ((f :: rest).map fun m => m.drop (clusterCut (f :: rest)))) := by
        intro n hn
        have hnL : n.drop (clusterCut (f :: rest)) ∈
            (f :: rest).map fun m => m.drop (clusterCut (f :: rest)) :=
          List.mem_map_of_mem _ hn
        have h1 := clusterCut_le_length _ _ hnL
        have h2 := clusterCut_take _ _ hnL
        rw [hhead] at h2
        have hKn : clusterCut (f :: rest) ≤ n.length := clusterCut_le_length _ n hn
        have h3 : n.take (clusterCut (f :: rest)) = f.take (clusterCut (f :: rest)) := by
          have := clusterCut_take (f :: rest) n hn
          simpa using this
        constructor
        · rw [List.length_drop] at h1
          omega
        · rw [List.take_add, List.take_add, List.headD_cons, h3, h2]
      have hmax := clusterCut_ge (f :: rest) _ (by simp) hall
      omega

/-- Claim C6 witness: the amended theorem evaluated on the cluster
`["muon_pt", "muon_eta"]`. -/
theorem c6_witness :
    clusterCut ([pystr "muon_pt", pystr "muon_eta"].map
      fun n => n.drop (clusterCut [pystr "muon_pt", pystr "muon_eta"])) = 0 :=
  c6_raw_suffix_lcp [pystr "muon_pt", pystr "muon_eta"] (by decide)

/-- Claim C10 (confirmed): a singleton cluster whose member name has at
least one non-separator character is named by the whole member name
stripped of separators on both ends, and its sub-record has exactly one
field named by the empty string. -/
theorem c10_singleton_cluster (n : PyStr) (i : Nat)
    (h : ∃ c ∈ n, isSep c = false) :
    clusterCommon i [n] = stripSeps n ∧ clusterSubnames [n] = [pystr ""] := by
  have hne : n ≠ [] := by
    rintro rfl
    rcases h with ⟨c, hc, _⟩
    cases hc
  have hlen : n.length ≠ 0 := fun h0 => hne (List.eq_nil_of_length_eq_zero h0)
  have hcut : clusterCut [n] = n.length := by
    show foldCut n [n] n.length = n.length
    rw [foldCut_cons]
    simp only [foldCut, List.foldl_nil]
    rw [Nat.min_self, shrink_self]
  constructor
  · simp only [clusterCommon, hcut, if_neg hlen, List.headD_cons]
    rw [List.take_length]
  · have hsub : clusterSubnames [n] = [stripSeps (n.drop n.length)] := by
      simp only [clusterSubnames, clusterSubpairs, hcut]
      rw [if_neg hlen]
      simp only [List.map_cons, List.map_nil]
      rw [pyDictOf_single]
      simp
    rw [hsub, List.drop_length]
    rfl

/-- Claim C10 witness: the theorem evaluated on the singleton cluster
`["muon_pt"]`. -/
theorem c10_witness :
    clusterCommon 0 [pystr "muon_pt"] = stripSeps (pystr "muon_pt") ∧
    clusterSubnames [pystr "muon_pt"] = [pystr ""] :=
  c10_singleton_cluster (pystr "muon_pt") 0 (by decide)

theorem groupZipOut_eq (arrays : PyStr → AkArray) (ctx : List (PyStr × Bool)) :
    groupZipOut arrays ctx =
      match attachClusters arrays 0
        (if nonjaggedOf ctx = [] then none
         else some (pyDictOf ((nonjaggedOf ctx).map fun n => (n, AkEntry.arrE (arrays n)))))
        (buildClusters (fun n => offsetsOf (arrays n)) (jaggedOf ctx)) with
      | none => AkOut.noneOut
      | some fields => AkOut.recOut fields := rfl

/-- Claim C4 (amended): for every nonempty input, `group(how="zip")`
returns one record whose top-level field-name set is the set of
non-jagged names united with the set of cluster common names (clusters
or non-jagged fields sharing a name are overwritten by the latest
same-named cluster); in the muon scenario the output is exactly the
record with fields `event_id` and `muon`, the latter a sub-record with
fields `pt` and `eta`. -/
theorem c4_zip_record_fields (arrays : PyStr → AkArray) (ctx : List (PyStr × Bool))
    (h : ctx ≠ []) :
    (∃ fields, groupZipOut arrays ctx = AkOut.recOut fields ∧
      (fields.map Prod.fst).toFinset =
        (nonjaggedOf ctx).toFinset ∪ (zipCommons arrays ctx).toFinset) ∧
    groupZipOut muArrays muCtx =
      AkOut.recOut
        [ (pystr "event_id", .arrE (.flatArr [10, 11])),
          (pystr "muon", .subrecE
            [ (pystr "pt", .listArr [0, 2, 3] [1, 2, 3]),
              (pystr "eta", .listArr [0, 2, 3] [4, 5, 6]) ]) ] := by
  constructor
  · by_cases hnj : nonjaggedOf ctx = []
    · have hj : jaggedOf ctx ≠ [] := by
        rcases ctx_split_ne ctx h with h1 | h1
        · exact absurd hnj h1
        · exact h1
      have hcls := buildClusters_ne_nil (fun n => offsetsOf (arrays n)) (jaggedOf ctx) hj
      rcases attachClusters_none_keys arrays
          (buildClusters (fun n => offsetsOf (arrays n)) (jaggedOf ctx)) 0 hcls
          (buildClusters_members_ne _ _) with ⟨fields, he, hk⟩
      refine ⟨fields, ?_, ?_⟩
      · rw [groupZipOut_eq, if_pos hnj, he]
      · rw [hk, hnj]
        simp [zipCommons]
    · rcases attachClusters_some_keys arrays
          (buildClusters (fun n => offsetsOf (arrays n)) (jaggedOf ctx)) 0
          (pyDictOf ((nonjaggedOf ctx).map fun n => (n, AkEntry.arrE (arrays n))))
          (buildClusters_members_ne _ _) with ⟨fields, he, hk⟩
      refine ⟨fields, ?_, ?_⟩
      · rw [groupZipOut_eq, if_neg hnj, he]
      · rw [hk, pyDictOf_keys, map_fst_pair_map]
        simp [zipCommons]
  · decide

/-- Claim C4 counterexample: the jagged fields `foo_` and `foo.` have
different offsets and so form two clusters, but both clusters get the
common name `foo`; the second `with_field` overwrites the first, so the
output has a single top-level field instead of one sub-record per
cluster. -/
theorem c4_counterexample :
    (buildClusters (fun n => offsetsOf (fooArrays n)) (jaggedOf fooCtx)).length = 2 ∧
    groupZipOut fooArrays fooCtx =
      AkOut.recOut [(pystr "foo", .subrecE [(pystr "", .listArr [0, 2] [1, 2])])] := by
  decide

/-- Claim C4 witness: the amended theorem evaluated on the muon
scenario input. -/
theorem c4_witness :
    ∃ fields, groupZipOut muArrays muCtx = AkOut.recOut fields ∧
      (fields.map Prod.fst).toFinset =
        (nonjaggedOf muCtx).toFinset ∪ (zipCommons muArrays muCtx).toFinset :=
  (c4_zip_record_fields muArrays muCtx (by decide)).1

/-- Claim C2 counterexample: a Jagged array with 64-bit signed offsets
is finalized into the 32-bit signed list variant without any width
dispatch or assertion, while the claimed width-preservation rule
predicts the 64-bit variant. -/
theorem c2_counterexample :
    akFinalize (.jaggedIn .i64) = .ok (.listCont .w32 false) ∧
    akFinalizeWidth_spec false .i64 = .ok (.listCont .w64 false) ∧
    akFinalize (.jaggedIn .i64) ≠ akFinalizeWidth_spec false .i64 := by
  refine ⟨rfl, rfl, ?_⟩
  decide

/-- Claim C2 (amended): only String arrays get the offsets-width
dispatch (i32, u32, i64 mapped to the matching index-width variants,
anything else an assertion error); Jagged arrays always produce the
32-bit signed variant regardless of their offsets width. -/
theorem c2_width_dispatch :
    (∀ d, akFinalize (.stringIn d) = akFinalizeWidth_spec true d) ∧
    (∀ d, akFinalize (.jaggedIn d) = .ok (.listCont .w32 false)) := by
  constructor
  · intro d
    cases d <;> rfl
  · intro d
    rfl

/-- Claim C3 counterexample: with the dependency unavailable and the
module cache empty, a second access to `imported` re-runs the
underlying acquisition (the failure is not cached), though it raises
the same message. -/
theorem c3_counterexample :
    (importedProp (pystr "pip install awkward1") false ⟨false, 0⟩).1.acq = 1 ∧
    (importedProp (pystr "pip install awkward1") false ⟨false, 0⟩).2 =
      .error (pystr "pip install awkward1") ∧
    (importedProp (pystr "pip install awkward1") false
      (importedProp (pystr "pip install awkward1") false ⟨false, 0⟩).1).1.acq = 2 ∧
    (importedProp (pystr "pip install awkward1") false
      (importedProp (pystr "pip install awkward1") false ⟨false, 0⟩).1).2 =
      .error (pystr "pip install awkward1") := by decide

/-- Claim C3 (amended): a successful import is cached by the module
cache, so the handle is acquired at most once and cached accesses do no
work; a failed check is not cached — every access with the dependency
unavailable re-runs the acquisition, though each failure raises the
same remediation message. -/
theorem c3_import_memo (msg : PyStr) (avail : Bool) (s : ModState) :
    (s.cached = true → importedProp msg avail s = (s, .ok ())) ∧
    (avail = true → (importedProp msg avail s).1.cached = true ∧
      (importedProp msg avail s).2 = .ok ()) ∧
    (avail = false → s.cached = false →
      importedProp msg avail s = (⟨false, s.acq + 1⟩, .error msg)) := by
  obtain ⟨sc, sa⟩ := s
  refine ⟨?_, ?_, ?_⟩
  · intro hc
    simp only at hc
    subst hc
    simp [importedProp, pyImport]
  · intro ha
    subst ha
    by_cases hc : sc = true
    · subst hc
      simp [importedProp, pyImport]
    · simp only [Bool.not_eq_true] at hc
      subst hc
      simp [importedProp, pyImport]
  · intro ha hc
    subst ha
    simp only at hc
    subst hc
    simp [importedProp, pyImport]

/-- Claim C3 witness: the amended theorem evaluated on a concrete
unavailable-dependency state. -/
theorem c3_witness :
    importedProp (pystr "pip install cupy") false ⟨false, 5⟩ =
      (⟨false, 6⟩, .error (pystr "pip install cupy")) :=
  (c3_import_memo (pystr "pip install cupy") false ⟨false, 5⟩).2.2 rfl rfl

theorem assocFind_eq_none (l : List (PyStr × LibName)) (s : PyStr)
    (h : s ∉ l.map Prod.fst) : assocFind l s = none := by
  induction l with
  | nil => rfl
  | cons p rest ih =>
      obtain ⟨k, v⟩ := p
      simp only [List.map_cons, List.mem_cons] at h
      push_neg at h
      simp only [assocFind]
      rw [if_neg h.1]
      exact ih h.2

/-- Claim C7 counterexample: the identifier `NP` is a case-insensitive
variant of the canonical name `np`, yet resolution raises `ValueError`
— only the literally registered spellings resolve. -/
theorem c7_counterexample :
    lowerName (pystr "NP") = pystr "np" ∧
    regularizeLibrary (pystr "np") = .ok .np ∧
    regularizeLibrary (pystr "NP") = .error (.valueErr (pystr "NP")) := by
  refine ⟨?_, rfl, rfl⟩
  decide

/-- Claim C7 (amended): resolution succeeds exactly for the 21
literally registered keys — the lowercase canonical names plus the
specific registered alias spellings — with every key of one backend
mapping to that backend's singleton, and any other string identifier
raises a `ValueError` naming the identifier. -/
theorem c7_registry (s : PyStr) :
    (s ∈ [pystr "np", pystr "numpy", pystr "Numpy", pystr "NumPy", pystr "NUMPY"] →
      regularizeLibrary s = .ok .np) ∧
    (s ∈ [pystr "ak", pystr "awkward1", pystr "Awkward1", pystr "AWKWARD1",
          pystr "awkward", pystr "Awkward", pystr "AWKWARD"] →
      regularizeLibrary s = .ok .ak) ∧
    (s ∈ [pystr "pd", pystr "pandas", pystr "Pandas", pystr "PANDAS"] →
      regularizeLibrary s = .ok .pd) ∧
    (s ∈ [pystr "cp", pystr "cupy", pystr "Cupy", pystr "CuPy", pystr "CUPY"] →
      regularizeLibrary s = .ok .cp) ∧
    (s ∉ libraryPairs.map Prod.fst →
      regularizeLibrary s = .error (.valueErr s)) := by
  refine ⟨?_, ?_, ?_, ?_, ?_⟩
  · intro hs
    fin_cases hs <;> rfl
  · intro hs
    fin_cases hs <;> rfl
  · intro hs
    fin_cases hs <;> rfl
  · intro hs
    fin_cases hs <;> rfl
  · intro hs
    unfold regularizeLibrary
    rw [assocFind_eq_none libraryPairs s hs]

/-- Claim C7 witness: the amended theorem evaluated on a registered
alias and on an unknown identifier. -/
theorem c7_witness :
    regularizeLibrary (pystr "numpy") = .ok .np ∧
    regularizeLibrary (pystr "tensorflow") =
      .error (.valueErr (pystr "tensorflow")) :=
  ⟨(c7_registry (pystr "numpy")).1 (by decide),
   (c7_registry (pystr "tensorflow")).2.2.2.2 (by decide)⟩

/-- Claim C8 (confirmed): on every backend, `group(how=tuple)` and
`group(how=list)` re-project the finalized fields in exactly
`expression_context` order (position `i` holds field `i`'s array), and
`group(how=dict)` returns a mapping whose key set is exactly the set of
context field names. -/
theorem c8_group_reprojection (α : Type) (f : PyStr → α) (arrAk : PyStr → AkArray)
    (lib : PyStr) (ctx : List (PyStr × Bool)) :
    (libraryGroup lib f ctx How.tup = .ok (.tupleOut (ctxValues f ctx)) ∧
     libraryGroup lib f ctx How.lst = .ok (.listOut (ctxValues f ctx)) ∧
     awkwardGroup arrAk ctx How.tup = .ok (.tupleOut (ctxValues arrAk ctx)) ∧
     awkwardGroup arrAk ctx How.lst = .ok (.listOut (ctxValues arrAk ctx)) ∧
     pandasGroup f ctx How.tup = .ok (.tupleOut (ctxValues f ctx)) ∧
     pandasGroup f ctx How.lst = .ok (.listOut (ctxValues f ctx))) ∧
    ((ctxValues f ctx).length = ctx.length ∧
     ∀ i, (ctxValues f ctx).get? i = (ctx.get? i).map fun p => f p.1) ∧
    (∃ ps, libraryGroup lib f ctx How.dct = .ok (.dictOut ps) ∧
      (ps.map Prod.fst).toFinset = (ctx.map Prod.fst).toFinset) ∧
    (∃ ps, awkwardGroup arrAk ctx How.dct = .ok (.dictOut ps) ∧
      (ps.map Prod.fst).toFinset = (ctx.map Prod.fst).toFinset) ∧
    (∃ ps, pandasGroup f ctx How.dct = .ok (.dictOut ps) ∧
      (ps.map Prod.fst).toFinset = (ctx.map Prod.fst).toFinset) := by
  refine ⟨⟨rfl, rfl, rfl, rfl, rfl, rfl⟩, ⟨?_, ?_⟩, ?_, ?_, ?_⟩
  · simp [ctxValues]
  · intro i
    simp [ctxValues, List.getElem?_map]
  · exact ⟨_, rfl, by rw [pyDictOf_keys, map_fst_pair_map]⟩
  · exact ⟨_, rfl, by rw [pyDictOf_keys, map_fst_pair_map]⟩
  · exact ⟨_, rfl, by rw [pyDictOf_keys, map_fst_pair_map]⟩

theorem namedCols_nil_dims (ns : List PyStr) :
    namedCols ns [] = ns.map fun n => (pystr ":" ++ n, n, []) := by
  induction ns with
  | nil => rfl
  | cons n rest ih =>
      simp [namedCols, indexTuples, pdColName, bracketSuffix, ih]

theorem namedCols_length (ns : List PyStr) (dims : List Nat) :
    (namedCols ns dims).length = ns.length * (indexTuples dims).length := by
  induction ns with
  | nil => simp [namedCols]
  | cons n rest ih =>
      simp only [namedCols, List.length_append, List.length_map, ih, List.length_cons]
      rw [Nat.succ_mul, Nat.add_comm]

theorem indexTuples_length (dims : List Nat) :
    (indexTuples dims).length = dims.prod := by
  induction dims with
  | nil => rfl
  | cons d ds ih =>
      have haux : ∀ l : List Nat,
          (l.foldr (fun i acc => ((indexTuples ds).map fun t => i :: t) ++ acc) []).length
            = l.length * (indexTuples ds).length := by
        intro l
        induction l with
        | nil => simp
        | cons x l ihl =>
            simp only [List.foldr_cons, List.length_append, List.length_map, ihl,
              List.length_cons]
            rw [Nat.succ_mul, Nat.add_comm]
      simp only [indexTuples]
      rw [haux (List.range d), List.length_range, ih, List.prod_cons]

theorem namedCols_mem (ns : List PyStr) (dims : List Nat)
    (c : PyStr × PyStr × List Nat) (hc : c ∈ namedCols ns dims) :
    c.1 = pystr ":" ++ c.2.1 ++ bracketSuffix c.2.2 ∧ c.2.1 ∈ ns ∧
      c.2.2 ∈ indexTuples dims := by
  induction ns with
  | nil => cases hc
  | cons n rest ih =>
      simp only [namedCols] at hc
      rcases List.mem_append.mp hc with h | h
      · rcases List.mem_map.mp h with ⟨tup, htup, he⟩
        subst he
        exact ⟨rfl, List.mem_cons_self _ _, htup⟩
      · rcases ih h with ⟨h1, h2, h3⟩
        exact ⟨h1, List.mem_cons_of_mem _ h2, h3⟩

theorem namedCols_mem_intro (ns : List PyStr) (dims : List Nat) (n : PyStr)
    (tup : List Nat) (hn : n ∈ ns) (ht : tup ∈ indexTuples dims) :
    (pdColName n tup, n, tup) ∈ namedCols ns dims := by
  induction ns with
  | nil => cases hn
  | cons m rest ih =>
      simp only [namedCols]
      rcases List.mem_cons.mp hn with h | h
      · subst h
        exact List.mem_append_left _ (List.mem_map_of_mem _ ht)
      · exact List.mem_append_right _ (ih h)

/-- Claim C9 counterexample: a structured Flat array with subfield `x`
and one trailing dimension of size 3 produces columns named `:x[0]`,
`:x[1]`, `:x[2]` — each name carries a leading `:` marker, not the bare
subfield name plus bracket suffix that the claim predicts. -/
theorem c9_counterexample :
    pandasFinalizeFlat ⟨some [pystr "x"], [3]⟩ =
      .frameNamed [(pystr ":x[0]", pystr "x", [0]), (pystr ":x[1]", pystr "x", [1]),
                   (pystr ":x[2]", pystr "x", [2])] ∧
    specColName_spec (pystr "x") [0] = pystr "x[0]" ∧
    pystr ":x[0]" ≠ pystr "x[0]" := by decide

/-- Claim C9 (amended): a structured Flat array yields one column per
(subfield, trailing-index-tuple) combination — `#subfields × product of
trailing dims` columns, an exact correspondence — and each column is
named `":" + subfield + one bracketed index per trailing dimension`
(so just `":" + subfield` in the 1-dimensional case). -/
theorem c9_structured_columns (ns : List PyStr) (dims : List Nat) :
    pandasFinalizeFlat ⟨some ns, dims⟩ = .frameNamed (namedCols ns dims) ∧
    (namedCols ns dims).length = ns.length * dims.prod ∧
    (∀ c ∈ namedCols ns dims, c.1 = pystr ":" ++ c.2.1 ++ bracketSuffix c.2.2 ∧
      c.2.1 ∈ ns ∧ c.2.2 ∈ indexTuples dims) ∧
    (∀ n tup, n ∈ ns → tup ∈ indexTuples dims →
      (pdColName n tup, n, tup) ∈ namedCols ns dims) := by
  refine ⟨?_, ?_, ?_, ?_⟩
  · cases dims with
    | nil => simp [pandasFinalizeFlat, namedCols_nil_dims]
    | cons d ds => simp [pandasFinalizeFlat]
  · rw [namedCols_length, indexTuples_length]
  · intro c hc
    exact namedCols_mem ns dims c hc
  · intro n tup hn ht
    exact namedCols_mem_intro ns dims n tup hn ht

/-- Claim C9 witness: the amended theorem evaluated on subfields `x`,
`y` with one trailing dimension of size 2. -/
theorem c9_witness :
    pandasFinalizeFlat ⟨some [pystr "x", pystr "y"], [2]⟩ =
      .frameNamed (namedCols [pystr "x", pystr "y"] [2]) ∧
    (namedCols [pystr "x", pystr "y"] [2]).length =
      [pystr "x", pystr "y"].length * [2].prod ∧
    (pdColName (pystr "y") [1], pystr "y", [1]) ∈
      namedCols [pystr "x", pystr "y"] [2] := by
  have h := c9_structured_columns [pystr "x", pystr "y"] [2]
  exact ⟨h.1, h.2.1, h.2.2.2 (pystr "y") [1] (by decide) (by decide)⟩
